import Mathlib

/-!
Verification of the Compact Encoder (`src/compact_llm.rs`) of
`azure-devops-boards-mcp-rust`.

The encoder converts a universal JSON-like value tree into a compact,
unquoted textual form: `null`/`true`/`false` literals, numbers in their
standard textual form, strings verbatim except that line feed becomes the
two characters `\n` and carriage return becomes `\r`, arrays as
`[` elements-joined-by-comma `]`, objects as `{` key `:` value pairs
joined by comma `}`.

Strings are modelled as their lists of Unicode scalar values (`List Char`),
matching Rust `String` contents. The output buffer of
`write_compact_value(&self, output: &mut String)` is modelled by explicit
state passing: the Lean function takes the buffer contents before the call
and returns the contents after it.
-/

namespace CompactLLM

/-- Rust `str::replace` with a single-character pattern: every occurrence of
the character `c` is replaced by the replacement list `r`. -/
def replaceChar (c : Char) (r : List Char) : List Char → List Char
  | [] => []
  | x :: xs => (if x = c then r else [x]) ++ replaceChar c r xs

/-- The escaping applied to string content and object keys:
`s.replace('\n', "\\n").replace('\r', "\\r")` from the source. -/
def escapeCompact (s : List Char) : List Char :=
  replaceChar '\r' ['\\', 'r'] (replaceChar '\n' ['\\', 'n'] s)

/-- Decimal digits of a natural number, least significant first; models the
standard integer-to-decimal-text conversion used by the host's numeric
rendering (digits only, no decimal point, no exponent). -/
def natDigitsRev (n : Nat) : List Char :=
  if n < 10 then [Char.ofNat (48 + n)]
  else Char.ofNat (48 + n % 10) :: natDigitsRev (n / 10)
termination_by n
decreasing_by
  exact Nat.div_lt_self (by omega) (by omega)

/-- Standard decimal rendering of a natural number. -/
def natText (n : Nat) : List Char := (natDigitsRev n).reverse

/-- Standard decimal rendering of an integer: optional leading minus sign,
then digits. -/
def intText (i : Int) : List Char :=
  if i < 0 then '-' :: natText i.natAbs else natText i.natAbs

/-- The numeric payload of the universal value model. The host keeps the
underlying representation (integer or floating point). A floating-point
number is carried together with its canonical shortest round-trippable
decimal rendering, which is produced by the host's standard
numeric-to-string conversion and is opaque to the encoder. -/
inductive JNum where
  | intN (i : Int)
  | floatN (text : String)

/-- `n.to_string()` for a number `n`: the standard textual form of the
underlying numeric representation. -/
def numberToString : JNum → List Char
  | .intN i => intText i
  | .floatN t => t.data

/-- The universal value model (`serde_json::Value`): a closed tagged union
with exactly six variants. Objects are ordered key/value sequences, in the
iteration order the source value presents. -/
inductive JValue where
  | null
  | bool (b : Bool)
  | num (n : JNum)
  | str (s : String)
  | arr (elems : List JValue)
  | obj (entries : List (String × JValue))

mutual

/-- `write_compact_value(value, output)`: appends the compact encoding of
`value` to the buffer `output` and returns the new buffer contents. -/
def write_compact_value (value : JValue) (output : List Char) : List Char :=
  match value with
  | .null => output ++ "null".data
  | .bool b => output ++ (if b then "true" else "false").data
  | .num n => output ++ numberToString n
  | .str s => output ++ escapeCompact s.data
  | .arr elems => writeArrayItems elems true (output ++ ['[']) ++ [']']
  | .obj entries => writeObjectItems entries true (output ++ ['{']) ++ ['}']

/-- The loop over array elements: a comma before every element except the
first, then the element's encoding. `first` is true when no element has
been written yet (the loop's `i > 0` test). -/
def writeArrayItems (items : List JValue) (first : Bool) (output : List Char) :
    List Char :=
  match items with
  | [] => output
  | v :: rest =>
      writeArrayItems rest false
        (write_compact_value v (if first then output else output ++ [',']))

/-- The loop over object entries: a comma before every pair except the
first, then the escaped key, a colon, and the value's encoding. -/
def writeObjectItems (entries : List (String × JValue)) (first : Bool)
    (output : List Char) : List Char :=
  match entries with
  | [] => output
  | (k, v) :: rest =>
      writeObjectItems rest false
        (write_compact_value v
          ((if first then output else output ++ [',']) ++
            escapeCompact k.data ++ [':']))

end

/-- The encoding of a value: what one call of the encoder appends to an
initially empty buffer. -/
def encodeL (v : JValue) : List Char := write_compact_value v []

/-- `to_compact_string`: the upstream conversion into the universal value
tree (the `serde_json::to_value(value)?` step, an external collaborator
with an opaque error type `ε`) either fails, in which case its error is
propagated by `?`, or yields a tree that is encoded into a fresh buffer. -/
def to_compact_string {ε : Type} (conv : Except ε JValue) : Except ε String :=
  match conv with
  | .error e => .error e
  | .ok jsonValue => .ok (String.mk (write_compact_value jsonValue []))

/-- Structural induction over the universal value tree, recursing into the
elements of arrays and the values of object entries. -/
def JValue.forallRec (P : JValue → Prop)
    (hnull : P .null) (hbool : ∀ b, P (.bool b)) (hnum : ∀ n, P (.num n))
    (hstr : ∀ s, P (.str s))
    (harr : ∀ elems, (∀ v ∈ elems, P v) → P (.arr elems))
    (hobj : ∀ entries, (∀ kv ∈ entries, P kv.2) → P (.obj entries)) :
    ∀ v, P v
  | .null => hnull
  | .bool b => hbool b
  | .num n => hnum n
  | .str s => hstr s
  | .arr elems => harr elems fun v hv =>
      JValue.forallRec P hnull hbool hnum hstr harr hobj v
  | .obj entries => hobj entries fun kv hkv =>
      JValue.forallRec P hnull hbool hnum hstr harr hobj kv.2
termination_by v => sizeOf v
decreasing_by
  · have := List.sizeOf_lt_of_mem hv
    simp only [JValue.arr.sizeOf_spec]
    omega
  · have h1 := List.sizeOf_lt_of_mem hkv
    have h2 : sizeOf kv.2 < sizeOf kv := by
      obtain ⟨k, v⟩ := kv
      simp
    simp only [JValue.obj.sizeOf_spec]
    omega

/-- `write_compact_value` only ever appends: the buffer after a call of the
array-items loop is the prior buffer followed by what the loop writes into
an empty buffer, provided each element's writer already has that property. -/
theorem writeArrayItems_append (items : List JValue)
    (h : ∀ v ∈ items, ∀ out, write_compact_value v out = out ++ encodeL v) :
    ∀ (first : Bool) (out : List Char),
      writeArrayItems items first out = out ++ writeArrayItems items first [] := by
  induction items with
  | nil => intro first out; simp [writeArrayItems]
  | cons v rest ih =>
    intro first out
    have hv := h v (by simp)
    have hrest : ∀ w ∈ rest, ∀ out, write_compact_value w out = out ++ encodeL w :=
      fun w hw => h w (by simp [hw])
    have ihr := ih hrest
    simp only [writeArrayItems]
    have hb : (if first = true then out else out ++ [',']) =
        out ++ (if first = true then [] else [',']) := by cases first <;> simp
    have hb0 : (if first = true then ([] : List Char) else [] ++ [',']) =
        (if first = true then [] else [',']) := by cases first <;> simp
    rw [hb, hb0, hv, hv]
    rw [ihr false (out ++ (if first = true then [] else [',']) ++ encodeL v),
      ihr false ((if first = true then [] else [',']) ++ encodeL v)]
    simp

/-- Same append property for the object-entries loop. -/
theorem writeObjectItems_append (entries : List (String × JValue))
    (h : ∀ kv ∈ entries, ∀ out, write_compact_value kv.2 out = out ++ encodeL kv.2) :
    ∀ (first : Bool) (out : List Char),
      writeObjectItems entries first out = out ++ writeObjectItems entries first [] := by
  induction entries with
  | nil => intro first out; simp [writeObjectItems]
  | cons kv rest ih =>
    obtain ⟨k, v⟩ := kv
    intro first out
    have hv : ∀ out, write_compact_value v out = out ++ encodeL v := h (k, v) (by simp)
    have hrest : ∀ kv ∈ rest, ∀ out, write_compact_value kv.2 out = out ++ encodeL kv.2 :=
      fun kv hkv => h kv (by simp [hkv])
    have ihr := ih hrest
    simp only [writeObjectItems]
    have hb : ((if first = true then out else out ++ [',']) ++
          escapeCompact k.data ++ [':']) =
        out ++ ((if first = true then [] else [',']) ++
          escapeCompact k.data ++ [':']) := by cases first <;> simp
    have hb0 : ((if first = true then ([] : List Char) else [] ++ [',']) ++
          escapeCompact k.data ++ [':']) =
        (if first = true then [] else [',']) ++
          escapeCompact k.data ++ [':'] := by cases first <;> simp
    rw [hb, hb0, hv, hv]
    rw [ihr false (out ++ ((if first = true then [] else [',']) ++
        escapeCompact k.data ++ [':']) ++ encodeL v),
      ihr false ((if first = true then [] else [',']) ++
        escapeCompact k.data ++ [':'] ++ encodeL v)]
    simp

/-- The frame property of the writer: a call appends the value's encoding
to whatever the buffer already holds. -/
theorem write_compact_value_append (v : JValue) :
    ∀ out, write_compact_value v out = out ++ encodeL v := by
  induction v using JValue.forallRec with
  | hnull => intro out; simp [write_compact_value, encodeL]
  | hbool b => intro out; simp [write_compact_value, encodeL]
  | hnum n => intro out; simp [write_compact_value, encodeL]
  | hstr s => intro out; simp [write_compact_value, encodeL]
  | harr elems ih =>
    intro out
    simp only [write_compact_value, encodeL]
    rw [writeArrayItems_append elems ih true (out ++ ['[']),
      writeArrayItems_append elems ih true ([] ++ ['['])]
    simp
  | hobj entries ih =>
    intro out
    simp only [write_compact_value, encodeL]
    rw [writeObjectItems_append entries ih true (out ++ ['{']),
      writeObjectItems_append entries ih true ([] ++ ['{'])]
    simp

/-- The spec's "joined by a single comma": a comma between adjacent pieces,
none before the first piece and none after the last. -/
def joinedByComma : List (List Char) → List Char
  | [] => []
  | [x] => x
  | x :: y :: rest => x ++ ',' :: joinedByComma (y :: rest)

/-- The compact encoding of one object entry: escaped key, colon, value. -/
def pairEncode (kv : String × JValue) : List Char :=
  escapeCompact kv.1.data ++ ':' :: encodeL kv.2

/-- The array-items loop mid-stream (comma before every element) produces a
comma followed by the comma-joined element encodings. -/
theorem writeArrayItems_false (items : List JValue) (hne : items ≠ []) :
    writeArrayItems items false [] = ',' :: joinedByComma (items.map encodeL) := by
  induction items with
  | nil => exact absurd rfl hne
  | cons v rest ih =>
    simp only [writeArrayItems, reduceIte, List.nil_append]
    have hc : (if false = true then ([] : List Char) else [',']) = [','] := rfl
    rw [hc, write_compact_value_append v [',']]
    rw [writeArrayItems_append rest
      (fun w _ => write_compact_value_append w) false ([','] ++ encodeL v)]
    cases rest with
    | nil => simp [writeArrayItems, joinedByComma]
    | cons y t =>
      rw [ih (by simp)]
      simp [joinedByComma]

/-- The array-items loop started fresh produces the comma-joined element
encodings. -/
theorem writeArrayItems_true (items : List JValue) :
    writeArrayItems items true [] = joinedByComma (items.map encodeL) := by
  cases items with
  | nil => simp [writeArrayItems, joinedByComma]
  | cons v rest =>
    simp only [writeArrayItems, reduceIte, List.nil_append]
    rw [write_compact_value_append v []]
    rw [writeArrayItems_append rest
      (fun w _ => write_compact_value_append w) false ([] ++ encodeL v)]
    cases rest with
    | nil => simp [writeArrayItems, joinedByComma]
    | cons y t =>
      rw [writeArrayItems_false (y :: t) (by simp)]
      simp [joinedByComma]

/-- The object-entries loop mid-stream produces a comma followed by the
comma-joined pair encodings. -/
theorem writeObjectItems_false (entries : List (String × JValue)) (hne : entries ≠ []) :
    writeObjectItems entries false [] = ',' :: joinedByComma (entries.map pairEncode) := by
  induction entries with
  | nil => exact absurd rfl hne
  | cons kv rest ih =>
    obtain ⟨k, v⟩ := kv
    simp only [writeObjectItems, reduceIte, List.nil_append]
    have hc : (if false = true then ([] : List Char) else [',']) = [','] := rfl
    rw [hc, write_compact_value_append v ([','] ++ escapeCompact k.data ++ [':'])]
    rw [writeObjectItems_append rest
      (fun kv _ => write_compact_value_append kv.2) false
      ([','] ++ escapeCompact k.data ++ [':'] ++ encodeL v)]
    cases rest with
    | nil => simp [writeObjectItems, joinedByComma, pairEncode]
    | cons y t =>
      rw [ih (by simp)]
      simp [joinedByComma, pairEncode]

/-- The object-entries loop started fresh produces the comma-joined pair
encodings. -/
theorem writeObjectItems_true (entries : List (String × JValue)) :
    writeObjectItems entries true [] = joinedByComma (entries.map pairEncode) := by
  cases entries with
  | nil => simp [writeObjectItems, joinedByComma]
  | cons kv rest =>
    obtain ⟨k, v⟩ := kv
    simp only [writeObjectItems, reduceIte, List.nil_append]
    rw [write_compact_value_append v (escapeCompact k.data ++ [':'])]
    rw [writeObjectItems_append rest
      (fun kv _ => write_compact_value_append kv.2) false
      (escapeCompact k.data ++ [':'] ++ encodeL v)]
    cases rest with
    | nil => simp [writeObjectItems, joinedByComma, pairEncode]
    | cons y t =>
      rw [writeObjectItems_false (y :: t) (by simp)]
      simp [joinedByComma, pairEncode]

/-- Closed form of the array encoding. -/
theorem encodeL_arr (elems : List JValue) :
    encodeL (.arr elems) = '[' :: joinedByComma (elems.map encodeL) ++ [']'] := by
  simp only [encodeL, write_compact_value]
  rw [writeArrayItems_append elems
    (fun w _ => write_compact_value_append w) true ([] ++ ['['])]
  rw [writeArrayItems_true]
  simp

/-- Closed form of the object encoding. -/
theorem encodeL_obj (entries : List (String × JValue)) :
    encodeL (.obj entries) = '{' :: joinedByComma (entries.map pairEncode) ++ ['}'] := by
  simp only [encodeL, write_compact_value]
  rw [writeObjectItems_append entries
    (fun kv _ => write_compact_value_append kv.2) true ([] ++ ['{'])]
  rw [writeObjectItems_true]
  simp

/-- The per-character escaping the spec describes: a line feed becomes
backslash then `n`, a carriage return becomes backslash then `r`, and every
other character is passed through untouched. -/
def escChar (c : Char) : List Char :=
  if c = '\n' then ['\\', 'n'] else if c = '\r' then ['\\', 'r'] else [c]

theorem replaceChar_append (c : Char) (r : List Char) (a b : List Char) :
    replaceChar c r (a ++ b) = replaceChar c r a ++ replaceChar c r b := by
  induction a with
  | nil => simp [replaceChar]
  | cons x xs ih => simp [replaceChar, ih]

/-- The two sequential single-character replacements of the source equal
the simultaneous per-character substitution of the spec. -/
theorem escapeCompact_eq_flatMap (s : List Char) :
    escapeCompact s = s.flatMap escChar := by
  induction s with
  | nil => rfl
  | cons x xs ih =>
    have hstep : escapeCompact (x :: xs) =
        replaceChar '\r' ['\\', 'r'] (if x = '\n' then ['\\', 'n'] else [x]) ++
          escapeCompact xs := by
      simp only [escapeCompact, replaceChar]
      rw [replaceChar_append]
    rw [hstep, ih, List.flatMap_cons]
    congr 1
    by_cases h1 : x = '\n'
    · subst h1; decide
    · by_cases h2 : x = '\r'
      · subst h2; decide
      · simp [replaceChar, escChar, h1, h2]

/-- Every character emitted for a natural number is a decimal digit. -/
theorem natDigitsRev_mem (n : Nat) :
    ∀ c ∈ natDigitsRev n, 48 ≤ c.toNat ∧ c.toNat ≤ 57 := by
  induction n using Nat.strong_induction_on with
  | _ n ih =>
    intro c hc
    rw [natDigitsRev] at hc
    by_cases h : n < 10
    · rw [if_pos h] at hc
      simp only [List.mem_singleton] at hc
      subst hc
      interval_cases n <;> decide
    · rw [if_neg h] at hc
      rcases List.mem_cons.mp hc with rfl | hc2
      · have h10 : n % 10 < 10 := Nat.mod_lt _ (by omega)
        generalize hm : n % 10 = m at *
        interval_cases m <;> decide
      · exact ih (n / 10) (Nat.div_lt_self (by omega) (by omega)) c hc2

/-- Every character of the integer rendering is a minus sign or a digit. -/
theorem intText_chars (i : Int) :
    ∀ c ∈ intText i, c = '-' ∨ (48 ≤ c.toNat ∧ c.toNat ≤ 57) := by
  intro c hc
  simp only [intText, natText] at hc
  by_cases h : i < 0
  · rw [if_pos h] at hc
    rcases List.mem_cons.mp hc with rfl | hc2
    · exact Or.inl rfl
    · exact Or.inr (natDigitsRev_mem _ c (List.mem_reverse.mp hc2))
  · rw [if_neg h] at hc
    exact Or.inr (natDigitsRev_mem _ c (List.mem_reverse.mp hc))

/-- An integer rendering never contains a decimal point or an exponent
marker. -/
theorem intText_no_point_no_exp (i : Int) :
    '.' ∉ intText i ∧ 'e' ∉ intText i ∧ 'E' ∉ intText i := by
  refine ⟨fun h => ?_, fun h => ?_, fun h => ?_⟩ <;>
    rcases intText_chars i _ h with h1 | h1 <;> first
      | exact absurd h1 (by decide)
      | (obtain ⟨h2, h3⟩ := h1; revert h2 h3; decide)

/-- A structural character of the compact format. -/
def structuralChar (c : Char) : Bool :=
  c = '{' || c = '}' || c = '[' || c = ']' || c = ',' || c = ':'

/-- String content that is "safe": free of line feeds, carriage returns and
structural characters. -/
def safeText (s : String) : Bool :=
  s.data.all fun c => !(c = '\n' || c = '\r' || structuralChar c)

mutual

/-- A value is safe when no string content in it (object keys included)
contains a line feed, carriage return or structural character. -/
def safeValue : JValue → Bool
  | .null => true
  | .bool _ => true
  | .num _ => true
  | .str s => safeText s
  | .arr elems => safeElems elems
  | .obj entries => safeEntries entries

def safeElems : List JValue → Bool
  | [] => true
  | v :: vs => safeValue v && safeElems vs

def safeEntries : List (String × JValue) → Bool
  | [] => true
  | (k, v) :: rest => safeText k && safeValue v && safeEntries rest

end

mutual

/-- Modelled from the spec: the relaxed output grammar of §6, which the
repository does not implement (no decoder exists in the source).
`GrammarParses v s` holds when the grammar can derive the text `s` as the
value `v`: the `null`/`true`/`false` literals, a number's textual form, the
`string` production (any Unicode text with the line-feed and
carriage-return substitution applied, unquoted), `[`…`]` around
comma-separated elements, `{`…`}` around comma-separated `key:value`
pairs. -/
inductive GrammarParses : JValue → List Char → Prop where
  | nullTok : GrammarParses .null "null".data
  | trueTok : GrammarParses (.bool true) "true".data
  | falseTok : GrammarParses (.bool false) "false".data
  | numTok (n : JNum) : GrammarParses (.num n) (numberToString n)
  | strTok (s : String) : GrammarParses (.str s) (escapeCompact s.data)
  | arrEmpty : GrammarParses (.arr []) ['[', ']']
  | arrItems (vs : List JValue) (s : List Char) :
      GrammarItems vs s → GrammarParses (.arr vs) ('[' :: s ++ [']'])
  | objEmpty : GrammarParses (.obj []) ['{', '}']
  | objPairs (kvs : List (String × JValue)) (s : List Char) :
      GrammarPairs kvs s → GrammarParses (.obj kvs) ('{' :: s ++ ['}'])

/-- Modelled from the spec: the `value ("," value)*` item list of the §6
`array` production. -/
inductive GrammarItems : List JValue → List Char → Prop where
  | single (v : JValue) (s : List Char) :
      GrammarParses v s → GrammarItems [v] s
  | cons (v : JValue) (s : List Char) (vs : List JValue) (ss : List Char) :
      GrammarParses v s → GrammarItems vs ss →
      GrammarItems (v :: vs) (s ++ ',' :: ss)

/-- Modelled from the spec: the `pair ("," pair)*` list of the §6 `object`
production, each pair being `string ":" value`. -/
inductive GrammarPairs : List (String × JValue) → List Char → Prop where
  | single (k : String) (v : JValue) (s : List Char) :
      GrammarParses v s →
      GrammarPairs [(k, v)] (escapeCompact k.data ++ ':' :: s)
  | cons (k : String) (v : JValue) (s : List Char)
      (kvs : List (String × JValue)) (ss : List Char) :
      GrammarParses v s → GrammarPairs kvs ss →
      GrammarPairs ((k, v) :: kvs) (escapeCompact k.data ++ ':' :: s ++ ',' :: ss)

end

/-- A nonempty element list whose members re-parse to themselves joins into
a derivable item sequence. -/
theorem grammarItems_of_encodes (elems : List JValue)
    (h : ∀ v ∈ elems, GrammarParses v (encodeL v)) (hne : elems ≠ []) :
    GrammarItems elems (joinedByComma (elems.map encodeL)) := by
  induction elems with
  | nil => exact absurd rfl hne
  | cons v rest ih =>
    cases rest with
    | nil =>
      simp only [List.map_cons, List.map_nil, joinedByComma]
      exact GrammarItems.single v (encodeL v) (h v (by simp))
    | cons y t =>
      have hrest := ih (fun w hw => h w (by simp [hw])) (by simp)
      have hjoin : joinedByComma ((v :: y :: t).map encodeL) =
          encodeL v ++ ',' :: joinedByComma ((y :: t).map encodeL) := by
        simp [joinedByComma]
      rw [hjoin]
      exact GrammarItems.cons v (encodeL v) (y :: t) _ (h v (by simp)) hrest

/-- A nonempty entry list whose values re-parse to themselves joins into a
derivable pair sequence. -/
theorem grammarPairs_of_encodes (entries : List (String × JValue))
    (h : ∀ kv ∈ entries, GrammarParses kv.2 (encodeL kv.2)) (hne : entries ≠ []) :
    GrammarPairs entries (joinedByComma (entries.map pairEncode)) := by
  induction entries with
  | nil => exact absurd rfl hne
  | cons kv rest ih =>
    obtain ⟨k, v⟩ := kv
    cases rest with
    | nil =>
      simp only [List.map_cons, List.map_nil, joinedByComma, pairEncode]
      exact GrammarPairs.single k v (encodeL v) (h (k, v) (by simp))
    | cons y t =>
      have hrest := ih (fun kv hkv => h kv (by simp [hkv])) (by simp)
      have hjoin : joinedByComma (((k, v) :: y :: t).map pairEncode) =
          escapeCompact k.data ++ ':' :: encodeL v ++ ',' ::
            joinedByComma ((y :: t).map pairEncode) := by
        simp [joinedByComma, pairEncode]
      rw [hjoin]
      exact GrammarPairs.cons k v (encodeL v) (y :: t) _ (h (k, v) (by simp)) hrest

/-- Every encoding derives back its own value under the §6 grammar. -/
theorem grammarParses_encodeL (v : JValue) : GrammarParses v (encodeL v) := by
  induction v using JValue.forallRec with
  | hnull =>
    have : encodeL .null = "null".data := by simp [encodeL, write_compact_value]
    rw [this]; exact GrammarParses.nullTok
  | hbool b =>
    cases b with
    | true =>
      have : encodeL (.bool true) = "true".data := by
        simp [encodeL, write_compact_value]
      rw [this]; exact GrammarParses.trueTok
    | false =>
      have : encodeL (.bool false) = "false".data := by
        simp [encodeL, write_compact_value]
      rw [this]; exact GrammarParses.falseTok
  | hnum n =>
    have : encodeL (.num n) = numberToString n := by
      simp [encodeL, write_compact_value]
    rw [this]; exact GrammarParses.numTok n
  | hstr s =>
    have : encodeL (.str s) = escapeCompact s.data := by
      simp [encodeL, write_compact_value]
    rw [this]; exact GrammarParses.strTok s
  | harr elems ih =>
    rw [encodeL_arr]
    cases elems with
    | nil => exact GrammarParses.arrEmpty
    | cons v rest =>
      exact GrammarParses.arrItems (v :: rest) _
        (grammarItems_of_encodes (v :: rest) ih (by simp))
  | hobj entries ih =>
    rw [encodeL_obj]
    cases entries with
    | nil => exact GrammarParses.objEmpty
    | cons kv rest =>
      exact GrammarParses.objPairs (kv :: rest) _
        (grammarPairs_of_encodes (kv :: rest) ih (by simp))

/-- Comma-free pieces joined by commas contain exactly one comma per
junction. -/
theorem joinedByComma_count (xs : List (List Char))
    (h : ∀ x ∈ xs, ',' ∉ x) (hne : xs ≠ []) :
    (joinedByComma xs).count ',' = xs.length - 1 := by
  induction xs with
  | nil => exact absurd rfl hne
  | cons x rest ih =>
    cases rest with
    | nil =>
      simp only [joinedByComma, List.length_singleton]
      exact List.count_eq_zero.mpr (h x (by simp))
    | cons y t =>
      have hx : x.count ',' = 0 := List.count_eq_zero.mpr (h x (by simp))
      have ht := ih (fun z hz => h z (by simp [hz])) (by simp)
      simp only [joinedByComma] at ht ⊢
      rw [List.count_append, hx, List.count_cons_self, ht]
      simp

/-- Claim C1: encoding a string (also as an object key) yields exactly its
characters with every line feed replaced by backslash-n and every carriage
return replaced by backslash-r, and no other transformation — no quotes,
and no escaping of any other character. -/
theorem string_encoding_escapes_lf_cr_only :
    (∀ s : String, encodeL (.str s) = s.data.flatMap escChar) ∧
    (∀ (k : String) (v : JValue), encodeL (.obj [(k, v)]) =
      '{' :: (k.data.flatMap escChar ++ ':' :: encodeL v) ++ ['}']) := by
  constructor
  · intro s
    simp [encodeL, write_compact_value, escapeCompact_eq_flatMap]
  · intro k v
    rw [encodeL_obj]
    simp [joinedByComma, pairEncode, escapeCompact_eq_flatMap]

/-- Claim C2: an array encodes as a left bracket, its element encodings
joined by a single comma (no trailing comma), and a right bracket; the
empty array encodes to two brackets, and for comma-free element encodings
the output holds exactly n−1 separator commas. -/
theorem array_encoding_comma_joined :
    (∀ elems, encodeL (.arr elems) =
      '[' :: joinedByComma (elems.map encodeL) ++ [']']) ∧
    encodeL (.arr []) = "[]".data ∧
    (∀ elems, elems ≠ [] → (∀ v ∈ elems, ',' ∉ encodeL v) →
      (encodeL (.arr elems)).count ',' = elems.length - 1) := by
  refine ⟨encodeL_arr, ?_, ?_⟩
  · rw [encodeL_arr]; rfl
  · intro elems hne h
    have hj := joinedByComma_count (elems.map encodeL)
      (by intro x hx; obtain ⟨v, hv, rfl⟩ := List.mem_map.mp hx; exact h v hv)
      (by simpa using hne)
    rw [encodeL_arr, List.count_append, List.count_cons, hj]
    simp

/-- Witness for claim C2 at a concrete two-element array. -/
theorem array_encoding_comma_joined_witness :
    (encodeL (.arr [.null, .bool true])).count ',' =
      [JValue.null, JValue.bool true].length - 1 := by
  apply array_encoding_comma_joined.2.2
  · simp
  · intro v hv
    rcases List.mem_cons.mp hv with rfl | hv2
    · simp only [encodeL, write_compact_value]; decide
    · rcases List.mem_cons.mp hv2 with rfl | hv3
      · simp only [encodeL, write_compact_value]; decide
      · simp at hv3

/-- Claim C3: an object encodes as a left brace, its pairs (escaped key,
colon, encoded value) joined by a single comma in iteration order, and a
right brace; the empty object encodes to two braces. -/
theorem object_encoding_comma_joined_pairs :
    (∀ entries, encodeL (.obj entries) =
      '{' :: joinedByComma (entries.map fun kv =>
        escapeCompact kv.1.data ++ ':' :: encodeL kv.2) ++ ['}']) ∧
    encodeL (.obj []) = "{}".data := by
  constructor
  · intro entries
    rw [encodeL_obj]
    rfl
  · rw [encodeL_obj]; rfl

/-- Claim C4: the literals — null, true and false encode to their bare
keyword texts, with no surrounding delimiters. -/
theorem literal_encodings :
    encodeL .null = "null".data ∧ encodeL (.bool true) = "true".data ∧
      encodeL (.bool false) = "false".data := by
  refine ⟨?_, ?_, ?_⟩ <;> simp [encodeL, write_compact_value]

/-- Claim C5: a number encodes to the standard textual form of its
underlying representation with no surrounding delimiters; an integer
renders as sign and decimal digits with no decimal point and no exponent
marker, and a floating-point value passes through the canonical shortest
round-trippable rendering produced by the host conversion. -/
theorem number_encoding_canonical_text :
    (∀ n, encodeL (.num n) = numberToString n) ∧
    (∀ i, numberToString (.intN i) = intText i ∧
      (∀ c ∈ intText i, c = '-' ∨ (48 ≤ c.toNat ∧ c.toNat ≤ 57)) ∧
      '.' ∉ intText i ∧ 'e' ∉ intText i ∧ 'E' ∉ intText i) ∧
    (∀ t, numberToString (.floatN t) = t.data) := by
  refine ⟨?_, ?_, fun t => rfl⟩
  · intro n; simp [encodeL, write_compact_value]
  · intro i
    exact ⟨rfl, intText_chars i, intText_no_point_no_exp i⟩

/-- Witness for claim C5 at a concrete negative integer, applying the
character classification to the sign character it contains. -/
theorem number_encoding_canonical_text_witness :
    encodeL (.num (.intN (-42))) = numberToString (.intN (-42)) ∧
      ('-' = '-' ∨ (48 ≤ '-'.toNat ∧ '-'.toNat ≤ 57)) := by
  refine ⟨number_encoding_canonical_text.1 (.intN (-42)), ?_⟩
  have hm : '-' ∈ intText (-42) := by simp [intText, natText]
  exact (number_encoding_canonical_text.2.1 (-42)).2.1 '-' hm

/-- Claim C6: on the safe subset — no string content or key containing a
line feed, carriage return or structural character — encoding and then
parsing the output with the relaxed grammar of §6 yields back the input
tree. -/
theorem safe_roundtrip_grammar (v : JValue) (h : safeValue v = true) :
    GrammarParses v (encodeL v) :=
  grammarParses_encodeL v

/-- Witness for claim C6 at a concrete safe object. -/
theorem safe_roundtrip_grammar_witness :
    safeValue (.obj [("a", .arr [.num (.intN 1), .str "x"])]) = true ∧
      GrammarParses (.obj [("a", .arr [.num (.intN 1), .str "x"])])
        (encodeL (.obj [("a", .arr [.num (.intN 1), .str "x"])])) := by
  have hsafe : safeValue (.obj [("a", .arr [.num (.intN 1), .str "x"])]) = true := by
    simp only [safeValue, safeEntries, safeElems]
    decide
  exact ⟨hsafe, safe_roundtrip_grammar _ hsafe⟩

/-- Claim C7: `to_compact_string` fails exactly when the upstream
conversion into the universal value tree fails; the upstream error is
surfaced unchanged with no partial output, and on every well-formed tree
the formatting step is total and produces the encoding. -/
theorem to_compact_string_error_propagation :
    ∀ (ε : Type) (conv : Except ε JValue),
      ((∃ e, to_compact_string conv = Except.error e) ↔
        ∃ e, conv = Except.error e) ∧
      (∀ e, conv = Except.error e → to_compact_string conv = Except.error e) ∧
      (∀ v, conv = Except.ok v →
        to_compact_string conv = Except.ok (String.mk (encodeL v))) := by
  intro ε conv
  cases conv with
  | error e => simp [to_compact_string]
  | ok v => simp [to_compact_string, encodeL]

/-- Witness for claim C7: a concrete propagated error and a concrete
successful encoding. -/
theorem to_compact_string_error_propagation_witness :
    to_compact_string (Except.error "boom" : Except String JValue) =
        Except.error "boom" ∧
      to_compact_string (Except.ok JValue.null : Except String JValue) =
        Except.ok "null" := by
  constructor
  · exact (to_compact_string_error_propagation String (Except.error "boom")).2.1
      "boom" rfl
  · rw [(to_compact_string_error_propagation String
      (Except.ok JValue.null)).2.2 JValue.null rfl]
    have : encodeL JValue.null = "null".data := by
      simp [encodeL, write_compact_value]
    rw [this]

/-- Claim C8: the encoder is pure and holds no state across calls — the
text appended by a call depends only on the (unchanged) input value, so
two invocations on equal inputs append equal output, whatever either
buffer previously held. -/
theorem encoder_pure_deterministic (v w : JValue) (p q : List Char)
    (h : v = w) :
    (write_compact_value v p).drop p.length =
      (write_compact_value w q).drop q.length := by
  subst h
  rw [write_compact_value_append v p, write_compact_value_append v q]
  simp

/-- Witness for claim C8 with two different prior buffers. -/
theorem encoder_pure_deterministic_witness :
    (write_compact_value (.bool true) ['x']).drop 1 =
      (write_compact_value (.bool true) []).drop 0 :=
  encoder_pure_deterministic (.bool true) (.bool true) ['x'] [] rfl

/-- Claim C9: the writer only appends — after a call the buffer is its
prior content followed by the value's encoding, so a composite value's
encoding is the concatenation of the fragments its parts write. -/
theorem writer_appends_frame :
    ∀ (v : JValue) (p : List Char), write_compact_value v p = p ++ encodeL v :=
  fun v => write_compact_value_append v

/-- Claim C10: the empty string encodes to no characters at all, so empty
strings contribute nothing between adjacent delimiters: two empty-string
array elements encode to a bracketed lone comma, and an object pair with
empty key and empty value encodes to a braced lone colon. -/
theorem empty_string_encodes_empty :
    encodeL (.str "") = [] ∧
      encodeL (.arr [.str "", .str ""]) = "[,]".data ∧
      encodeL (.obj [("", .str "")]) = "{:}".data := by
  refine ⟨?_, ?_, ?_⟩
  · simp [encodeL, write_compact_value, escapeCompact, replaceChar]
  · simp [encodeL, write_compact_value, writeArrayItems, escapeCompact,
      replaceChar]
  · simp [encodeL, write_compact_value, writeObjectItems, escapeCompact,
      replaceChar]

end CompactLLM
